import Mathlib

/-!
Verification of the email body normalization and response-budget
allocation pipeline of the jmap-mcp server.

Go strings are modelled as `List Char` (one list entry per byte; the
claims under study only measure lengths and compare exact contents, so
the byte/rune distinction is not load-bearing).  Go `int` values that can
go negative (`limit`, `budget`, `remaining`) are modelled as `Int`.

Third-party capabilities consumed by the pipeline (the plain-text
reply-stripping heuristic `erp.Parse`, the HTML-to-text renderer
`html2text.HTML2Text`, and the `x/net/html` parser/serializer) are
modelled as opaque function parameters: every theorem below is
quantified over them, so it holds for any behaviour of those libraries.
-/

namespace JmapMcp

/-- The fixed truncation advisory marker (`truncationMarker` in bodytext.go). -/
def truncationMarker : List Char := "\n\n[... body truncated ...]".toList

/-- `DefaultMaxBodyChars` in bodytext.go: per-email body cap applied when maxChars is 0. -/
def DefaultMaxBodyChars : Int := 4000

/-- `defaultMaxChars` in context.go: default total budget of `email_get`. -/
def defaultMaxChars : Int := 50000

/-- Index of the last newline in a list, or -1 when there is none
(`strings.LastIndex(s, "\n")` on the modelled string). -/
def lastNewlineIdx : List Char → Int
  | [] => -1
  | c :: rest =>
    let r := lastNewlineIdx rest
    if 0 ≤ r then r + 1
    else if c = '\n' then 0 else -1

/-- `TruncateBody` from bodytext.go: cuts `text` to fit within `limit`
characters, reserving room for the marker and preferring a cut at the
last newline before the budget. -/
def TruncateBody (text : List Char) (limit : Int) : List Char :=
  if (text.length : Int) ≤ limit then text
  else
    let budget : Int := limit - (truncationMarker.length : Int)
    if budget ≤ 0 then truncationMarker
    else
      let cut : Int := lastNewlineIdx (text.take budget.toNat)
      let cut : Int := if cut ≤ 0 then budget else cut
      text.take cut.toNat ++ truncationMarker

/-- `PrepareBody` from bodytext.go: strip text-level quoted replies via the
external heuristic, then truncate; non-positive `maxChars` falls back to
`DefaultMaxBodyChars`. -/
def PrepareBody (erpParse : List Char → List Char) (text : List Char) (maxChars : Int) : List Char :=
  let m : Int := if maxChars ≤ 0 then DefaultMaxBodyChars else maxChars
  TruncateBody (erpParse text) m

/-- The marker has 26 characters. -/
theorem truncationMarker_length : truncationMarker.length = 26 := by decide

/-- `lastNewlineIdx` is at least -1 and below the length of the list. -/
theorem lastNewlineIdx_lt (s : List Char) : -1 ≤ lastNewlineIdx s ∧ lastNewlineIdx s < (s.length : Int) := by
  induction s with
  | nil => simp [lastNewlineIdx]
  | cons c rest ih =>
    simp only [lastNewlineIdx, List.length_cons]
    by_cases h : 0 ≤ lastNewlineIdx rest
    · simp only [h, if_pos]
      omega
    · simp only [h, if_neg, if_false]
      by_cases hc : c = '\n'
      · simp only [hc, if_pos]
        omega
      · simp only [hc, if_neg, if_false]
        omega

/-- Length of the truncation result, all branches: it never exceeds
`max limit (marker length)`. -/
theorem TruncateBody_length_le (text : List Char) (limit : Int) :
    ((TruncateBody text limit).length : Int) ≤ max limit (truncationMarker.length : Int) := by
  unfold TruncateBody
  by_cases h1 : (text.length : Int) ≤ limit
  · simp only [h1, if_pos]
    exact le_trans h1 (le_max_left _ _)
  · simp only [h1, if_neg, if_false]
    by_cases h2 : limit - (truncationMarker.length : Int) ≤ 0
    · simp only [h2, if_pos]
      exact le_max_right _ _
    · simp only [h2, if_neg, if_false]
      have hb := lastNewlineIdx_lt (text.take (limit - (truncationMarker.length : Int)).toNat)
      simp only [List.length_append, List.length_take]
      have hml : truncationMarker.length = 26 := truncationMarker_length
      by_cases h3 : lastNewlineIdx (text.take (limit - (truncationMarker.length : Int)).toNat) ≤ 0
      · simp only [h3, if_pos]
        have : (limit - (truncationMarker.length : Int)).toNat ≤ limit.toNat - 26 := by omega
        push_cast
        omega
      · simp only [h3, if_neg, if_false]
        rcases hb with ⟨_, hlt⟩
        have hlen : (List.length (text.take (limit - (truncationMarker.length : Int)).toNat) : Int)
            ≤ limit - (truncationMarker.length : Int) := by
          simp only [List.length_take]
          push_cast
          omega
        push_cast
        omega

/-- `lastNewlineIdx s = -1` means `s` has no newline at all. -/
theorem lastNewlineIdx_eq_neg_one (s : List Char) (h : lastNewlineIdx s = -1) : '\n' ∉ s := by
  induction s with
  | nil => simp
  | cons c rest ih =>
    simp only [lastNewlineIdx] at h
    by_cases hr : 0 ≤ lastNewlineIdx rest
    · simp only [hr, if_pos] at h
      omega
    · simp only [hr, if_neg, if_false] at h
      by_cases hc : c = '\n'
      · simp [hc] at h
      · simp only [hc, if_neg, if_false] at h
        have hge := (lastNewlineIdx_lt rest).1
        simp only [List.mem_cons, not_or]
        exact ⟨fun he => hc he.symm, ih (by omega)⟩

/-- `lastNewlineIdx s = j ≥ 0` means position `j` holds a newline and no
later position does: it is the index of the last newline of `s`. -/
theorem lastNewlineIdx_spec (s : List Char) (j : Nat) (h : lastNewlineIdx s = (j : Int)) :
    s.get? j = some '\n' ∧ ∀ k : Nat, j < k → s.get? k ≠ some '\n' := by
  induction s generalizing j with
  | nil => simp [lastNewlineIdx] at h
  | cons c rest ih =>
    simp only [lastNewlineIdx] at h
    by_cases hr : 0 ≤ lastNewlineIdx rest
    · simp only [hr, if_pos] at h
      obtain ⟨j', hj'⟩ : ∃ j' : Nat, lastNewlineIdx rest = (j' : Int) := ⟨(lastNewlineIdx rest).toNat, by omega⟩
      have hjj : j = j' + 1 := by omega
      obtain ⟨ih1, ih2⟩ := ih j' hj'
      subst hjj
      refine ⟨by simpa using ih1, ?_⟩
      intro k hk
      match k with
      | 0 => omega
      | k' + 1 =>
        simp only [List.get?_cons_succ]
        exact ih2 k' (by omega)
    · simp only [hr, if_neg, if_false] at h
      by_cases hc : c = '\n'
      · simp only [hc, if_pos] at h
        have hj0 : j = 0 := by omega
        subst hj0
        have hge := (lastNewlineIdx_lt rest).1
        have hnone : '\n' ∉ rest := lastNewlineIdx_eq_neg_one rest (by omega)
        refine ⟨by simp [hc], ?_⟩
        intro k hk
        match k with
        | 0 => omega
        | k' + 1 =>
          simp only [List.get?_cons_succ]
          intro hmem
          exact hnone (List.get?_mem hmem)
      · simp only [hc, if_neg, if_false] at h
        omega

/-- C2 (as stated): false.  With `limit = 1 ≥ 0` and `text = "ab"` (longer
than the limit), `TruncateBody` returns the bare 26-character marker, which
exceeds the limit. -/
theorem truncate_length_exceeds_small_limit :
    ¬ (((TruncateBody ("ab".toList) 1).length : Int) ≤ 1) := by decide

/-- C2 (amended): `len(TruncateBody(text, limit)) ≤ limit` holds whenever
`limit ≥ len(truncationMarker)`; for `0 ≤ limit < len(truncationMarker)`
and `text` longer than the limit, the result is the bare marker (of
length 26, possibly exceeding the limit). -/
theorem truncate_length_le_limit (text : List Char) (limit : Int)
    (h : (truncationMarker.length : Int) ≤ limit) :
    ((TruncateBody text limit).length : Int) ≤ limit ∧
    (∀ t : List Char, ∀ l : Int, 0 ≤ l → l < (truncationMarker.length : Int) →
      l < (t.length : Int) → TruncateBody t l = truncationMarker) := by
  constructor
  · have hb := TruncateBody_length_le text limit
    omega
  · intro t l _ hlt hlen
    unfold TruncateBody
    have h1 : ¬ ((t.length : Int) ≤ l) := by omega
    have h2 : l - (truncationMarker.length : Int) ≤ 0 := by omega
    simp only [h1, if_neg, if_false, h2, if_pos]

/-- Witness for `truncate_length_le_limit` at `limit = 30`. -/
theorem truncate_length_le_limit_witness :
    (truncationMarker.length : Int) ≤ 30 ∧
      ((TruncateBody ("abcdefghijklmnopqrstuvwxyz0123456789".toList) 30).length : Int) ≤ 30 :=
  ⟨by decide, (truncate_length_le_limit ("abcdefghijklmnopqrstuvwxyz0123456789".toList) 30 (by decide)).1⟩

/-- C5: when truncation is needed and the budget `limit - len(marker)` is
at least 1, the result is `text[:cut] ++ marker`, where `cut` is the index
of the last newline of `text[:budget]` when that index is positive, and
`budget` otherwise (no newline, or newline only at index 0).  Moreover,
whenever `TruncateBody` shortens its input, the result ends with exactly
the truncation marker (theorems `lastNewlineIdx_spec` and
`lastNewlineIdx_eq_neg_one` pin down that `lastNewlineIdx` really is the
last-newline index). -/
theorem truncate_cut_formula (text : List Char) (limit : Int)
    (h1 : limit < (text.length : Int))
    (h2 : 1 ≤ limit - (truncationMarker.length : Int)) :
    (TruncateBody text limit =
      text.take (if 0 < lastNewlineIdx (text.take (limit - (truncationMarker.length : Int)).toNat)
                 then (lastNewlineIdx (text.take (limit - (truncationMarker.length : Int)).toNat)).toNat
                 else (limit - (truncationMarker.length : Int)).toNat) ++ truncationMarker) ∧
    (∀ t : List Char, ∀ l : Int, (TruncateBody t l).length < t.length →
      truncationMarker <:+ TruncateBody t l) := by
  constructor
  · unfold TruncateBody
    have hn1 : ¬ ((text.length : Int) ≤ limit) := by omega
    have hn2 : ¬ (limit - (truncationMarker.length : Int) ≤ 0) := by omega
    simp only [hn1, if_neg, if_false, hn2]
    by_cases h3 : lastNewlineIdx (text.take (limit - (truncationMarker.length : Int)).toNat) ≤ 0
    · have h4 : ¬ (0 < lastNewlineIdx (text.take (limit - (truncationMarker.length : Int)).toNat)) := by omega
      simp only [h3, if_pos, h4, if_neg, if_false]
    · have h4 : 0 < lastNewlineIdx (text.take (limit - (truncationMarker.length : Int)).toNat) := by omega
      simp only [h3, if_neg, if_false, h4, if_pos]
  · intro t l hshort
    unfold TruncateBody at hshort ⊢
    by_cases b1 : (t.length : Int) ≤ l
    · simp only [b1, if_pos] at hshort
      omega
    · simp only [b1, if_neg, if_false] at hshort ⊢
      by_cases b2 : l - (truncationMarker.length : Int) ≤ 0
      · simp only [b2, if_pos]
        exact List.suffix_refl _
      · simp only [b2, if_neg, if_false]
        exact ⟨_, rfl⟩

/-- Witness for `truncate_cut_formula`: a 37-character text, limit 30,
budget 4, no newline in the first 4 characters, so the hard cut at the
budget applies. -/
theorem truncate_cut_formula_witness :
    TruncateBody ("abcdefghij\nklmnopqrstuvwxyz0123456789".toList) 30 =
      ("abcdefghij\nklmnopqrstuvwxyz0123456789".toList).take 4 ++ truncationMarker := by
  have h := (truncate_cut_formula ("abcdefghij\nklmnopqrstuvwxyz0123456789".toList) 30
    (by decide) (by decide)).1
  rw [h]
  decide

/-!
HTML node trees.  `x/net/html` represents a parsed document as a tree of
nodes (document, element, text, comment, doctype); only the shape of the
tree and the blockquote test matter to `removeBlockquotes`, so the tree
is modelled as a mutual inductive (node / sibling forest).
-/

mutual

inductive HNode : Type where
  | element (tag : String) (children : HForest)
  | text (s : List Char)
  | comment (s : List Char)
  | doctype (s : List Char)
  | document (children : HForest)

inductive HForest : Type where
  | nil : HForest
  | cons (n : HNode) (rest : HForest) : HForest

end

/-- The removal test of bodytext.go line 38:
`c.Type == html.ElementNode && c.DataAtom == atom.Blockquote`. -/
def isBlockquote : HNode → Bool
  | .element tag _ => tag == "blockquote"
  | _ => false

mutual

/-- `removeBlockquotes` from bodytext.go: walk the children of `n`;
drop every blockquote child (with its whole subtree, without recursing
into it), recurse into every other child. -/
def removeBlockquotes : HNode → HNode
  | .element tag cs => .element tag (removeBlockquotesF cs)
  | .document cs => .document (removeBlockquotesF cs)
  | .text s => .text s
  | .comment s => .comment s
  | .doctype s => .doctype s

/-- The sibling-list pass of `removeBlockquotes` (the `for c := n.FirstChild`
loop, which captures the next sibling before removing the current node). -/
def removeBlockquotesF : HForest → HForest
  | .nil => .nil
  | .cons c rest =>
    if isBlockquote c then removeBlockquotesF rest
    else .cons (removeBlockquotes c) (removeBlockquotesF rest)

end

mutual

/-- All text-node contents of a tree, in document (sibling) order. -/
def texts : HNode → List (List Char)
  | .element _ cs => textsF cs
  | .document cs => textsF cs
  | .text s => [s]
  | .comment _ => []
  | .doctype _ => []

def textsF : HForest → List (List Char)
  | .nil => []
  | .cons c rest => texts c ++ textsF rest

end

mutual

/-- Text-node contents that live outside every blockquote subtree, in
document order. -/
def textsOutsideBQ : HNode → List (List Char)
  | .element _ cs => textsOutsideBQF cs
  | .document cs => textsOutsideBQF cs
  | .text s => [s]
  | .comment _ => []
  | .doctype _ => []

def textsOutsideBQF : HForest → List (List Char)
  | .nil => []
  | .cons c rest =>
    if isBlockquote c then textsOutsideBQF rest
    else textsOutsideBQ c ++ textsOutsideBQF rest

end

mutual

/-- Whether a tree contains a blockquote element anywhere. -/
def hasBlockquote : HNode → Bool
  | .element tag cs => tag == "blockquote" || hasBlockquoteF cs
  | .document cs => hasBlockquoteF cs
  | .text _ => false
  | .comment _ => false
  | .doctype _ => false

def hasBlockquoteF : HForest → Bool
  | .nil => false
  | .cons c rest => hasBlockquote c || hasBlockquoteF rest

end

/-- `StripBlockquotes` from bodytext.go, parameterized by the third-party
`html.Parse` / `html.Render` (`none` models their error returns): on any
parse or render failure the input is returned unchanged (fail-open);
otherwise the tree walk removes blockquotes and the tree is re-serialized. -/
def StripBlockquotes (htmlParse : List Char → Option HNode)
    (htmlRender : HNode → Option (List Char)) (rawHTML : List Char) : List Char :=
  match htmlParse rawHTML with
  | none => rawHTML
  | some doc =>
    match htmlRender (removeBlockquotes doc) with
    | none => rawHTML
    | some out => out

mutual

theorem texts_removeBlockquotes_aux (n : HNode) :
    texts (removeBlockquotes n) = textsOutsideBQ n := by
  cases n with
  | element tag cs =>
    simp only [removeBlockquotes, texts, textsOutsideBQ]
    exact textsF_removeBlockquotesF cs
  | document cs =>
    simp only [removeBlockquotes, texts, textsOutsideBQ]
    exact textsF_removeBlockquotesF cs
  | text s => simp only [removeBlockquotes, texts, textsOutsideBQ]
  | comment s => simp only [removeBlockquotes, texts, textsOutsideBQ]
  | doctype s => simp only [removeBlockquotes, texts, textsOutsideBQ]

theorem textsF_removeBlockquotesF (cs : HForest) :
    textsF (removeBlockquotesF cs) = textsOutsideBQF cs := by
  cases cs with
  | nil => simp only [removeBlockquotesF, textsF, textsOutsideBQF]
  | cons c rest =>
    simp only [removeBlockquotesF, textsOutsideBQF]
    by_cases h : isBlockquote c = true
    · simp only [h, if_pos]
      exact textsF_removeBlockquotesF rest
    · simp only [h, Bool.false_eq_true, if_false, textsF]
      rw [texts_removeBlockquotes_aux c, textsF_removeBlockquotesF rest]

end

/-- C6: the tree walk of `removeBlockquotes` keeps exactly the text that
lives outside every blockquote subtree, in unchanged document order — so
on every successfully parsed markup no text that existed only inside a
(possibly nested) blockquote survives, and content outside blockquotes
survives in sibling order. -/
theorem removeBlockquotes_texts (n : HNode) :
    texts (removeBlockquotes n) = textsOutsideBQ n :=
  texts_removeBlockquotes_aux n

mutual

/-- On a tree with no blockquote anywhere, the removal walk is the
identity (the repository-side half of the spec's "no-op on markup with
no quoted-reply elements"; whether the surrounding parse/serialize
round-trip preserves the raw string is a property of `x/net/html`, not
of this repository). -/
theorem removeBlockquotes_id (n : HNode) (h : hasBlockquote n = false) :
    removeBlockquotes n = n := by
  cases n with
  | element tag cs =>
    simp only [hasBlockquote, Bool.or_eq_false_iff] at h
    simp only [removeBlockquotes]
    rw [removeBlockquotesF_id cs h.2]
  | document cs =>
    simp only [hasBlockquote] at h
    simp only [removeBlockquotes]
    rw [removeBlockquotesF_id cs h]
  | text s => rfl
  | comment s => rfl
  | doctype s => rfl

theorem removeBlockquotesF_id (cs : HForest) (h : hasBlockquoteF cs = false) :
    removeBlockquotesF cs = cs := by
  cases cs with
  | nil => rfl
  | cons c rest =>
    simp only [hasBlockquoteF, Bool.or_eq_false_iff] at h
    have hbq : isBlockquote c = false := by
      cases c with
      | element tag cs' =>
        have := h.1
        simp only [hasBlockquote, Bool.or_eq_false_iff] at this
        simp only [isBlockquote, this.1]
      | text s => rfl
      | comment s => rfl
      | doctype s => rfl
      | document cs' => rfl
    simp only [removeBlockquotesF, hbq, Bool.false_eq_true, if_false]
    rw [removeBlockquotes_id c h.1, removeBlockquotesF_id rest h.2]

end

/-!
The `email_get` handler (context.go): body-representation selection
(`extractBody`), per-item header rendering, and the multi-item budget
loop of `handleEmailGet`.

Address objects and timestamps only ever reach the loop through the
third-party renderings `a.String()` and `t.Format(...)`, so they are
modelled as the already-rendered strings.
-/

/-- One entry of `e.Headers` (`h.Name`, `h.Value`). -/
structure HeaderField where
  name : List Char
  value : List Char

/-- One entry of `e.TextBody` / `e.HTMLBody`; only `PartID` is consulted. -/
structure BodyPart where
  partID : String

/-- The fields of `email.Email` consulted by `handleEmailGet` and
`extractBody`. -/
structure EmailM where
  id : List Char
  subject : List Char
  fromAddrs : List (List Char)
  toAddrs : List (List Char)
  ccAddrs : List (List Char)
  receivedAt : Option (List Char)
  headers : List HeaderField
  textBody : List BodyPart
  htmlBody : List BodyPart
  bodyValues : List (String × List Char)

/-- The third-party capabilities consumed by the pipeline. -/
structure Externals where
  erpParse : List Char → List Char
  html2text : List Char → List Char
  htmlParse : List Char → Option HNode
  htmlRender : HNode → Option (List Char)

/-- A trivial instantiation of the external capabilities, used to
evaluate the pipeline on concrete inputs. -/
def idExternals : Externals :=
  ⟨fun s => s, fun s => s, fun _ => none, fun _ => none⟩

/-- Go `unicode.IsSpace` restricted to the ASCII whitespace characters
(the only ones the claims exercise). -/
def isSpaceChar (c : Char) : Bool :=
  c == ' ' || c == '\t' || c == '\n' || c == '\r'

/-- `strings.TrimSpace`: drop leading and trailing whitespace. -/
def trimSpace (s : List Char) : List Char :=
  ((s.dropWhile isSpaceChar).reverse.dropWhile isSpaceChar).reverse

/-- `formatAddresses` from context.go: join the rendered addresses with
`", "`. -/
def formatAddresses (addrs : List (List Char)) : List Char :=
  List.intercalate (", ".toList) addrs

/-- The header block rendered for item `i` by `handleEmailGet`
(context.go lines 306-331): a `\n---\n\n` separator before every item but
the first, then either all raw headers (full-headers mode) or the
ID/Subject/From/To/CC/Date summary, then a blank line. -/
def renderHeader (fullHeaders : Bool) (i : Nat) (e : EmailM) : List Char :=
  (if 0 < i then "\n---\n\n".toList else []) ++
  (if fullHeaders && 0 < e.headers.length then
    (e.headers.map (fun h => h.name ++ ": ".toList ++ trimSpace h.value ++ "\n".toList)).flatten
  else
    "ID: ".toList ++ e.id ++ "\n".toList ++
    "Subject: ".toList ++ e.subject ++ "\n".toList ++
    (if 0 < e.fromAddrs.length then "From: ".toList ++ formatAddresses e.fromAddrs ++ "\n".toList else []) ++
    (if 0 < e.toAddrs.length then "To: ".toList ++ formatAddresses e.toAddrs ++ "\n".toList else []) ++
    (if 0 < e.ccAddrs.length then "CC: ".toList ++ formatAddresses e.ccAddrs ++ "\n".toList else []) ++
    (match e.receivedAt with
     | some d => "Date: ".toList ++ d ++ "\n".toList
     | none => [])) ++
  "\n".toList

/-- `e.BodyValues[partID]` (Go map lookup, modelled as association-list
lookup). -/
def lookupBody (bvs : List (String × List Char)) (pid : String) : Option (List Char) :=
  (bvs.find? (fun p => p.1 == pid)).map (fun p => p.2)

/-- The early-return loops of `extractBody`: the first part of the list
whose `PartID` has an available body value. -/
def firstBodyValue (parts : List BodyPart) (bvs : List (String × List Char)) : Option (List Char) :=
  match parts with
  | [] => none
  | p :: rest =>
    match lookupBody bvs p.partID with
    | some v => some v
    | none => firstBodyValue rest bvs

/-- `extractBody` from context.go: first available text-body value,
prepared directly; otherwise first available HTML-body value, stripped of
blockquotes, rendered to text, and prepared; otherwise empty. -/
def extractBody (X : Externals) (e : EmailM) : List Char :=
  match firstBodyValue e.textBody e.bodyValues with
  | some v => PrepareBody X.erpParse v 0
  | none =>
    match firstBodyValue e.htmlBody e.bodyValues with
    | some v => PrepareBody X.erpParse (X.html2text (StripBlockquotes X.htmlParse X.htmlRender v)) 0
    | none => []

/-- The placeholder substituted for an empty extracted body
(context.go lines 333-336). -/
def noBodyPlaceholder : List Char := "(no body content)".toList

/-- The normalized body fed to the truncator: the extracted body, or the
placeholder when it is empty. -/
def normalizedBody (X : Externals) (e : EmailM) : List Char :=
  let b := extractBody X e
  if b.isEmpty then noBodyPlaceholder else b

/-- The advisory line of context.go line 342:
`"\n\n--- TRUNCATED: %d of %d emails omitted (response would exceed %d chars). Fetch fewer emails per call. ---\n"`. -/
def advisoryLine (omitted total : Nat) (maxChars : Int) : List Char :=
  "\n\n--- TRUNCATED: ".toList ++ (toString omitted).toList ++
  " of ".toList ++ (toString total).toList ++
  " emails omitted (response would exceed ".toList ++ (toString maxChars).toList ++
  " chars). Fetch fewer emails per call. ---\n".toList

/-- Result of the assembly loop: the accumulated output, the items that
were appended (ghost observer, in append order), the `included` counter,
and the omitted count reported in the advisory (`none` when the loop ran
to completion without an advisory). -/
structure AsmResult where
  out : List Char
  includedItems : List EmailM
  included : Nat
  omittedReported : Option Nat

/-- The `for i, e := range args.List` loop of `handleEmailGet`
(context.go lines 305-349): render the header, normalize the body, stop
with an advisory once `maxChars - sb.Len() - hdr.Len() ≤ 0`, otherwise
append header plus truncated body and continue. -/
def assembleGo (X : Externals) (fullHeaders : Bool) (maxChars : Int) (total : Nat) :
    List EmailM → Nat → Nat → List EmailM → List Char → AsmResult
  | [], _, included, incl, sb => ⟨sb, incl, included, none⟩
  | e :: rest, i, included, incl, sb =>
    let hdr := renderHeader fullHeaders i e
    let body := normalizedBody X e
    let remaining : Int := maxChars - (sb.length : Int) - (hdr.length : Int)
    if remaining ≤ 0 then
      ⟨sb ++ advisoryLine (total - included) total maxChars, incl, included, some (total - included)⟩
    else
      assembleGo X fullHeaders maxChars total rest (i + 1) (included + 1) (incl ++ [e])
        (sb ++ hdr ++ TruncateBody body remaining)

/-- The multi-item assembly of `handleEmailGet`: clamp the requested
budget to `defaultMaxChars` when non-positive, then run the loop from an
empty buffer. -/
def emailGetAssemble (X : Externals) (fullHeaders : Bool) (inMaxChars : Int)
    (items : List EmailM) : AsmResult :=
  let maxChars : Int := if inMaxChars ≤ 0 then defaultMaxChars else inMaxChars
  assembleGo X fullHeaders maxChars items.length items 0 0 [] []

/-- An email with every consulted field empty. -/
def emptyEmail : EmailM := ⟨[], [], [], [], [], none, [], [], [], []⟩

/-- Length invariant of the assembly loop: as long as the buffer holds at
most `maxChars + 25` characters, the final output holds at most
`maxChars + 25` characters, plus the advisory line when one is appended
(25 = marker length - 1: an accepted item can overshoot the budget by at
most a bare marker written into a 1-character remainder). -/
theorem assembleGo_out_length (X : Externals) (fh : Bool) (maxChars : Int) (total : Nat) :
    ∀ (rest : List EmailM) (i included : Nat) (incl : List EmailM) (sb : List Char),
    (sb.length : Int) ≤ maxChars + 25 →
    (match (assembleGo X fh maxChars total rest i included incl sb).omittedReported with
     | none =>
       (((assembleGo X fh maxChars total rest i included incl sb).out).length : Int) ≤ maxChars + 25
     | some om =>
       (((assembleGo X fh maxChars total rest i included incl sb).out).length : Int)
         ≤ maxChars + 25 + ((advisoryLine om total maxChars).length : Int)) := by
  intro rest
  induction rest with
  | nil =>
    intro i included incl sb hsb
    simpa [assembleGo] using hsb
  | cons e rest ih =>
    intro i included incl sb hsb
    by_cases hrem : maxChars - (sb.length : Int) - ((renderHeader fh i e).length : Int) ≤ 0
    · simp only [assembleGo, hrem, if_pos]
      simp only [List.length_append]
      push_cast
      omega
    · simp only [assembleGo, hrem, if_false]
      apply ih
      have htl := TruncateBody_length_le (normalizedBody X e)
        (maxChars - (sb.length : Int) - ((renderHeader fh i e).length : Int))
      have h26 : (truncationMarker.length : Int) = 26 := by
        rw [truncationMarker_length]
        norm_num
      rw [h26] at htl
      rcases le_or_lt (maxChars - (sb.length : Int) - ((renderHeader fh i e).length : Int)) 26 with hc | hc
      · rw [max_eq_right hc] at htl
        simp only [List.length_append]
        push_cast
        omega
      · rw [max_eq_left (le_of_lt hc)] at htl
        simp only [List.length_append]
        push_cast
        omega

/-- C1 (as stated): false.  With `max_chars = 1` (positive, so unchanged
by clamping) and a single email with empty fields, the header alone
(16 characters) exhausts the budget, and the appended omission advisory
is 105 characters long — far more than `maxChars + len(marker) = 27`. -/
theorem emailGet_total_length_counterexample :
    ¬ (((emailGetAssemble idExternals false 1 [emptyEmail]).out.length : Int)
        ≤ 1 + (truncationMarker.length : Int)) := by decide

/-- C1 (amended): the total output of the `email_get` assembly loop is at
most `maxChars + len(truncationMarker) - 1` when no omission advisory is
appended; when one is appended, the bound additionally includes the
length of that advisory line (which is written after the budget check,
outside the budget). -/
theorem emailGet_total_length_bound (X : Externals) (fh : Bool) (inMaxChars : Int)
    (items : List EmailM) :
    (match (emailGetAssemble X fh inMaxChars items).omittedReported with
     | none =>
       (((emailGetAssemble X fh inMaxChars items).out).length : Int)
         ≤ (if inMaxChars ≤ 0 then defaultMaxChars else inMaxChars)
           + (truncationMarker.length : Int) - 1
     | some om =>
       (((emailGetAssemble X fh inMaxChars items).out).length : Int)
         ≤ (if inMaxChars ≤ 0 then defaultMaxChars else inMaxChars)
           + (truncationMarker.length : Int) - 1
           + ((advisoryLine om items.length
                (if inMaxChars ≤ 0 then defaultMaxChars else inMaxChars)).length : Int)) := by
  have h26 : (truncationMarker.length : Int) = 26 := by
    rw [truncationMarker_length]
    norm_num
  have hM : (0 : Int) ≤ (if inMaxChars ≤ 0 then defaultMaxChars else inMaxChars) + 25 := by
    by_cases h : inMaxChars ≤ 0
    · simp only [h, if_pos, defaultMaxChars]
      norm_num
    · simp only [h, if_false]
      omega
  have hb := assembleGo_out_length X fh (if inMaxChars ≤ 0 then defaultMaxChars else inMaxChars)
    items.length items 0 0 [] [] (by simpa using hM)
  unfold emailGetAssemble
  revert hb
  cases (assembleGo X fh (if inMaxChars ≤ 0 then defaultMaxChars else inMaxChars)
      items.length items 0 0 [] []).omittedReported <;>
    · intro hb
      simp only []
      omega

/-- C4: the assembly is total and degenerate-input safe: an empty item
list yields the empty output with no advisory; a zero requested budget
is clamped to the default before assembly; an item with neither an
available plain-text nor an available HTML body value is rendered as the
(non-empty) no-content placeholder, never the empty string. -/
theorem assemble_degenerate_safe (X : Externals) (fh : Bool) (m : Int)
    (items : List EmailM) (e : EmailM)
    (htext : firstBodyValue e.textBody e.bodyValues = none)
    (hhtml : firstBodyValue e.htmlBody e.bodyValues = none) :
    (emailGetAssemble X fh m []).out = [] ∧
    (emailGetAssemble X fh m []).omittedReported = none ∧
    emailGetAssemble X fh 0 items = emailGetAssemble X fh defaultMaxChars items ∧
    normalizedBody X e = noBodyPlaceholder ∧
    noBodyPlaceholder ≠ [] := by
  refine ⟨rfl, rfl, ?_, ?_, by decide⟩
  · unfold emailGetAssemble
    norm_num [defaultMaxChars]
  · unfold normalizedBody extractBody
    rw [htext, hhtml]
    rfl

/-- Witness for `assemble_degenerate_safe` on an email with no body
parts at all. -/
theorem assemble_degenerate_safe_witness :
    normalizedBody idExternals emptyEmail = noBodyPlaceholder :=
  (assemble_degenerate_safe idExternals false 0 [] emptyEmail rfl rfl).2.2.2.1

/-- The loop appends exactly a prefix of the remaining items, in order. -/
theorem assembleGo_includedItems (X : Externals) (fh : Bool) (maxChars : Int) (total : Nat) :
    ∀ (rest : List EmailM) (i included : Nat) (incl : List EmailM) (sb : List Char),
    ∃ k, k ≤ rest.length ∧
      (assembleGo X fh maxChars total rest i included incl sb).includedItems
        = incl ++ rest.take k ∧
      (assembleGo X fh maxChars total rest i included incl sb).included = included + k := by
  intro rest
  induction rest with
  | nil =>
    intro i included incl sb
    exact ⟨0, by simp [assembleGo]⟩
  | cons e rest ih =>
    intro i included incl sb
    by_cases hrem : maxChars - (sb.length : Int) - ((renderHeader fh i e).length : Int) ≤ 0
    · refine ⟨0, by omega, ?_, ?_⟩
      · simp [assembleGo, hrem]
      · simp [assembleGo, hrem]
    · obtain ⟨k, hk, hincl, hcount⟩ := ih (i + 1) (included + 1) (incl ++ [e])
        (sb ++ renderHeader fh i e ++ TruncateBody (normalizedBody X e)
          (maxChars - (sb.length : Int) - ((renderHeader fh i e).length : Int)))
      refine ⟨k + 1, by simpa using hk, ?_, ?_⟩
      · simp only [assembleGo, hrem, if_false]
        rw [hincl]
        simp [List.take_succ_cons]
      · simp only [assembleGo, hrem, if_false]
        rw [hcount]
        omega

/-- C7: the items included by the assembly loop are exactly a prefix of
the input list (`items.take k` for some `k`, in input order), so the
omitted items are always the complementary contiguous suffix: once an
item fails to fit, no later item is included. -/
theorem emailGet_included_contiguous (X : Externals) (fh : Bool) (m : Int)
    (items : List EmailM) :
    ∃ k, k ≤ items.length ∧
      (emailGetAssemble X fh m items).includedItems = items.take k ∧
      (emailGetAssemble X fh m items).included = k := by
  obtain ⟨k, hk, hincl, hcount⟩ := assembleGo_includedItems X fh
    (if m ≤ 0 then defaultMaxChars else m) items.length items 0 0 [] []
  exact ⟨k, hk, by simpa [emailGetAssemble] using hincl, by simpa [emailGetAssemble] using hcount⟩

/-- Counting invariant of the loop: included plus reported-omitted
(0 when no advisory) equals the total item count. -/
theorem assembleGo_count (X : Externals) (fh : Bool) (maxChars : Int) (total : Nat) :
    ∀ (rest : List EmailM) (i included : Nat) (incl : List EmailM) (sb : List Char),
    included + rest.length = total →
    (assembleGo X fh maxChars total rest i included incl sb).included
      + ((assembleGo X fh maxChars total rest i included incl sb).omittedReported.getD 0)
      = total := by
  intro rest
  induction rest with
  | nil =>
    intro i included incl sb h
    simp only [assembleGo, Option.getD_none]
    simpa using h
  | cons e rest ih =>
    intro i included incl sb h
    by_cases hrem : maxChars - (sb.length : Int) - ((renderHeader fh i e).length : Int) ≤ 0
    · simp only [assembleGo, hrem, if_pos, Option.getD_some]
      simp only [List.length_cons] at h
      omega
    · simp only [assembleGo, hrem, if_false]
      apply ih
      simp only [List.length_cons] at h
      omega

/-- C8: after every run of the assembly loop, the included count plus the
omitted count reported in the advisory (taken as 0 when no advisory is
emitted) equals the number of input items. -/
theorem emailGet_count_partition (X : Externals) (fh : Bool) (m : Int)
    (items : List EmailM) :
    (emailGetAssemble X fh m items).included
      + ((emailGetAssemble X fh m items).omittedReported.getD 0) = items.length := by
  have h := assembleGo_count X fh (if m ≤ 0 then defaultMaxChars else m)
    items.length items 0 0 [] [] (by simp)
  simpa [emailGetAssemble] using h

/-- C9: defaults for non-positive limits.  `PrepareBody` substitutes
`DefaultMaxBodyChars = 4000` for a non-positive per-body limit before
truncating, and the `email_get` assembly substitutes
`defaultMaxChars = 50000` for a non-positive total budget before the
loop runs. -/
theorem defaults_applied (erpParse : List Char → List Char) (text : List Char)
    (m : Int) (X : Externals) (fh : Bool) (m2 : Int) (items : List EmailM)
    (h1 : m ≤ 0) (h2 : m2 ≤ 0) :
    DefaultMaxBodyChars = 4000 ∧
    defaultMaxChars = 50000 ∧
    PrepareBody erpParse text m = TruncateBody (erpParse text) DefaultMaxBodyChars ∧
    emailGetAssemble X fh m2 items
      = assembleGo X fh defaultMaxChars items.length items 0 0 [] [] := by
  refine ⟨rfl, rfl, ?_, ?_⟩
  · unfold PrepareBody
    rw [if_pos h1]
  · unfold emailGetAssemble
    rw [if_pos h2]

/-- Witness for `defaults_applied` at limit 0 and budget -3. -/
theorem defaults_applied_witness :
    PrepareBody (fun s => s) ("hi".toList) 0 = TruncateBody ("hi".toList) DefaultMaxBodyChars ∧
    emailGetAssemble idExternals false (-3) []
      = assembleGo idExternals false defaultMaxChars 0 [] 0 0 [] [] := by
  have h := defaults_applied (fun s => s) ("hi".toList) 0 idExternals false (-3) []
    (by norm_num) (by norm_num)
  exact ⟨h.2.2.1, h.2.2.2⟩

/-- `firstBodyValue` really picks the first part whose `PartID` has an
available body value. -/
theorem firstBodyValue_eq_find (parts : List BodyPart) (bvs : List (String × List Char)) :
    firstBodyValue parts bvs
      = (parts.find? (fun p => (lookupBody bvs p.partID).isSome)).bind
          (fun p => lookupBody bvs p.partID) := by
  induction parts with
  | nil => rfl
  | cons p rest ih =>
    cases hl : lookupBody bvs p.partID with
    | some v =>
      rw [List.find?_cons_of_pos _ (by simp [hl])]
      simp [firstBodyValue, hl]
    | none =>
      rw [List.find?_cons_of_neg _ (by simp [hl])]
      simp only [firstBodyValue, hl]
      exact ih

/-- C10: body-representation selection.  `extractBody` uses exactly the
first text-body part with an available body value (all HTML parts and all
later text parts are then ignored); when no text part has one, it uses
exactly the first HTML-body part with an available value (stripped of
blockquotes and rendered to text); when neither exists, it returns the
empty string.  Multiple body parts are never concatenated. -/
theorem extractBody_selection (X : Externals) (e : EmailM) :
    extractBody X e =
      match e.textBody.find? (fun p => (lookupBody e.bodyValues p.partID).isSome) with
      | some p => PrepareBody X.erpParse ((lookupBody e.bodyValues p.partID).getD []) 0
      | none =>
        match e.htmlBody.find? (fun p => (lookupBody e.bodyValues p.partID).isSome) with
        | some p =>
          PrepareBody X.erpParse
            (X.html2text (StripBlockquotes X.htmlParse X.htmlRender
              ((lookupBody e.bodyValues p.partID).getD []))) 0
        | none => [] := by
  unfold extractBody
  rw [firstBodyValue_eq_find, firstBodyValue_eq_find]
  cases hf : e.textBody.find? (fun p => (lookupBody e.bodyValues p.partID).isSome) with
  | some p =>
    have hp := List.find?_some hf
    cases hl : lookupBody e.bodyValues p.partID with
    | some v => simp [hl]
    | none => simp [hl] at hp
  | none =>
    simp only [Option.bind_none]
    cases hf2 : e.htmlBody.find? (fun p => (lookupBody e.bodyValues p.partID).isSome) with
    | some p =>
      have hp := List.find?_some hf2
      cases hl : lookupBody e.bodyValues p.partID with
      | some v => simp [hl]
      | none => simp [hl] at hp
    | none => simp

end JmapMcp
